import Mathlib

/-!
Verification of the retry/idempotency core of a JSON-RPC client
(`PeercoinRPC.ts`).

The source file defines a class whose private `cmdWithRetry` drives a
bounded-attempt retry loop around a transport call, `cmdWithRetryAndDecode`
layers result decoding on top, `isReady` is a readiness probe, and
`sendToAddress` marshals optional positional parameters.

Shallow embedding choices:
  * The transport (`jsonRpcCmd`) is an external collaborator; we model one
    logical invocation's transport behaviour as a function
    `trans : Nat → Except ε α` giving the outcome of the n-th attempt
    (1-based), `ε` the transport-error type, `α` the raw-result type.
  * `PURE_METHODS`, `getWasExecutedFromError` and `getShouldRetry` live in
    `./utils`, which is outside the given sources; they are modelled as an
    abstract environment `UtilsEnv` (signatures from the spec: the
    classifier is tri-state, the policy is boolean).
  * Timing is modelled by a trace of events: each transport attempt and
    each inter-attempt delay (with its duration) is recorded in order.
  * The recursive `attempt` closure recurses only when
    `attemptN ≠ maxAttempts`, so along the reachable calls
    (`attemptN = 1, …, maxAttempts`) its depth is bounded; we give the
    Lean function a fuel argument equal to `maxAttempts` and prove the fuel
    is never exhausted on those calls (`attemptGo_fuel_irrelevant`).
-/

set_option autoImplicit false

namespace PeercoinRPC

/-- `const MAX_ATTEMPTS = 5;` -/
def MAX_ATTEMPTS : Nat := 5

/-- `const DELAY_BETWEEN_ATTEMPTS = 5000;` (milliseconds) -/
def DELAY_BETWEEN_ATTEMPTS : Nat := 5000

/-- One observable step of a retry run: a transport attempt (with its
1-based attempt number) or a wait of `ms` milliseconds (`await delay(...)`). -/
inductive Event where
  | attempt (n : Nat)
  | delayEv (ms : Nat)
  deriving DecidableEq, Repr

/-- Modelled from the spec: the `./utils` module (absent from the sources)
supplies the pure-method list, the effect classifier and the retry policy.
`getWasExecutedFromError` is tri-state (`some true` = executed,
`some false` = not executed, `none` = unknown, the JS `undefined`);
`getShouldRetry` is boolean. -/
structure UtilsEnv (ε : Type) where
  PURE_METHODS : List String
  getWasExecutedFromError : String → ε → Option Bool
  getShouldRetry : String → ε → Bool

/-- Modelled from the spec: `PeercoinRPCError` (absent from the sources) is
the terminal error thrown by the executor; it wraps the last transport
error, the execution-state verdict `executed`, and the diagnostic bundle
built by `getErrrorData()` (method, params, methodIsPure, maxAttempts,
attempts). `π` is the type of the parameter list. -/
structure PeercoinRPCError (ε π : Type) where
  error : ε
  executed : Option Bool
  method : String
  params : π
  methodIsPure : Bool
  maxAttempts : Nat
  attempts : Nat
  deriving Repr

/-- Outcome of one retry run: the value returned or the error thrown,
together with the ordered trace of attempts and delays. -/
structure RunRes (α ε π : Type) where
  result : Except (PeercoinRPCError ε π) α
  trace : List Event
  deriving Repr

/-- The recursive `attempt` closure of `cmdWithRetry`, for one failed or
successful attempt numbered `attemptN`:

```
try { return await this.cmd(method, ...params); }
catch (error) {
  const executed = getWasExecutedFromError(method, error);
  const hadEffects = !methodIsPure && executed !== false;
  const shouldRetry = !hadEffects && getShouldRetry(method, error);
  if (attemptN === maxAttempts) throw new PeercoinRPCError(error, executed, getErrrorData());
  if (shouldRetry) { await delay(DELAY_BETWEEN_ATTEMPTS); return attempt(attemptN + 1); }
  throw new PeercoinRPCError(error, executed, getErrrorData());
}
```

`fuel` only bounds the recursion depth for Lean; with the fuel supplied by
`cmdWithRetry` the fuel-exhausted branch is unreachable
(`attemptGo_fuel_irrelevant`). -/
def attemptGo {α ε π : Type} (env : UtilsEnv ε) (trans : Nat → Except ε α)
    (method : String) (params : π) (methodIsPure : Bool) (maxAttempts : Nat) :
    Nat → Nat → RunRes α ε π
  | fuel, attemptN =>
    match trans attemptN with
    | Except.ok r => ⟨Except.ok r, [Event.attempt attemptN]⟩
    | Except.error e =>
      let executed := env.getWasExecutedFromError method e
      let hadEffects := !methodIsPure && executed != some false
      let shouldRetry := !hadEffects && env.getShouldRetry method e
      let terminalErr : PeercoinRPCError ε π :=
        ⟨e, executed, method, params, methodIsPure, maxAttempts, attemptN⟩
      if attemptN = maxAttempts then
        ⟨Except.error terminalErr, [Event.attempt attemptN]⟩
      else if shouldRetry then
        match fuel with
        | 0 => ⟨Except.error terminalErr, [Event.attempt attemptN]⟩
        | fuel' + 1 =>
          let rest := attemptGo env trans method params methodIsPure maxAttempts
            fuel' (attemptN + 1)
          ⟨rest.result,
            Event.attempt attemptN :: Event.delayEv DELAY_BETWEEN_ATTEMPTS :: rest.trace⟩
      else
        ⟨Except.error terminalErr, [Event.attempt attemptN]⟩

/-- `cmdWithRetry(method, ...params)`:
computes `methodIsPure = PURE_METHODS.includes(method)`,
fixes `maxAttempts = MAX_ATTEMPTS`, and runs `attempt()` starting at
`attemptN = 1`. -/
def cmdWithRetry {α ε π : Type} (env : UtilsEnv ε) (trans : Nat → Except ε α)
    (method : String) (params : π) : RunRes α ε π :=
  let methodIsPure := env.PURE_METHODS.contains method
  let maxAttempts := MAX_ATTEMPTS
  attemptGo env trans method params methodIsPure maxAttempts maxAttempts 1

/-- Is the event a transport attempt? -/
def isAttempt : Event → Bool
  | Event.attempt _ => true
  | Event.delayEv _ => false

/-- Number of transport attempts recorded in a trace. -/
def numAttempts (t : List Event) : Nat := t.countP isAttempt

/-- Number of delays recorded in a trace. -/
def numDelays (t : List Event) : Nat := t.countP (fun e => !isAttempt e)

/-- Error escaping `cmdWithRetryAndDecode`: either the `PeercoinRPCError`
propagated from `cmdWithRetry`, or a decode error `Object.assign`-ed with an
`executed` flag (`δ` the decode-error type). -/
inductive DecodeFail (ε π δ : Type) where
  | rpc (err : PeercoinRPCError ε π)
  | decodeErr (err : δ) (executed : Bool)

/-- Outcome of one `cmdWithRetryAndDecode` run, with the retry trace. -/
structure DecodedRunRes (β ε π δ : Type) where
  result : Except (DecodeFail ε π δ) β
  trace : List Event

/-- `cmdWithRetryAndDecode(decoder, method, ...params)`:
awaits `cmdWithRetry` (its error propagates untouched), then decodes the raw
result; a decode failure is rethrown with `executed: true` assigned:

```
const result = await this.cmdWithRetry(method, ...params);
try { return iotsDecode(decoder, result); }
catch (error) { throw Object.assign(error, { executed: true }); }
```

The decoder `iotsDecode(decoder, ·)` is modelled as `decode : α → Except δ β`. -/
def cmdWithRetryAndDecode {α β ε π δ : Type} (env : UtilsEnv ε)
    (decode : α → Except δ β) (trans : Nat → Except ε α)
    (method : String) (params : π) : DecodedRunRes β ε π δ :=
  let r := cmdWithRetry env trans method params
  match r.result with
  | Except.error err => ⟨Except.error (DecodeFail.rpc err), r.trace⟩
  | Except.ok v =>
    match decode v with
    | Except.ok d => ⟨Except.ok d, r.trace⟩
    | Except.error de => ⟨Except.error (DecodeFail.decodeErr de true), r.trace⟩

/-- A JSON-compatible positional parameter as pushed by `sendToAddress`:
a string, a boolean, or the JS `undefined`. -/
inductive SendParam where
  | str (s : String)
  | bool (b : Bool)
  | undef
  deriving DecidableEq, Repr

/-- JS truthiness of a `string | undefined` value: `undefined` and the empty
string are falsy. -/
def optStrTruthy : Option String → Bool
  | none => false
  | some s => !(s == "")

/-- The positional parameter list `sendToAddress` builds before calling
`cmdWithRetryAndDecode(..., 'sendtoaddress', ...params)`:

```
const params: any[] = [address, amount];
if (replaceable !== undefined) {
  params.push(comment ?? '', commentTo ?? '', subtractFeeFromAmount ?? false, replaceable);
} else if (subtractFeeFromAmount !== undefined) {
  params.push(comment ?? '', commentTo ?? '', subtractFeeFromAmount);
} else if (commentTo !== undefined) {
  params.push(comment ?? '', commentTo);
} else if (commentTo) {
  params.push(comment);
}
```

Optional arguments are `Option`s (`none` = JS `undefined`); the final
`else if (commentTo)` tests JS truthiness. -/
def sendToAddressParams (address amount : String) (comment commentTo : Option String)
    (subtractFeeFromAmount replaceable : Option Bool) : List SendParam :=
  let params : List SendParam := [SendParam.str address, SendParam.str amount]
  if replaceable.isSome then
    params ++ [SendParam.str (comment.getD ""), SendParam.str (commentTo.getD ""),
      SendParam.bool (subtractFeeFromAmount.getD false), SendParam.bool (replaceable.getD false)]
  else if subtractFeeFromAmount.isSome then
    params ++ [SendParam.str (comment.getD ""), SendParam.str (commentTo.getD ""),
      SendParam.bool (subtractFeeFromAmount.getD false)]
  else if commentTo.isSome then
    params ++ [SendParam.str (comment.getD ""), SendParam.str (commentTo.getD "")]
  else if optStrTruthy commentTo then
    params ++ [match comment with
      | some c => SendParam.str c
      | none => SendParam.undef]
  else
    params

/-- `sendToAddress(address, amount, comment?, commentTo?, subtractFeeFromAmount?, replaceable?)`:
builds the positional parameter list and runs the retry/decode pipeline on
method `'sendtoaddress'`. -/
def sendToAddress {α β ε δ : Type} (env : UtilsEnv ε) (decode : α → Except δ β)
    (trans : Nat → Except ε α) (address amount : String)
    (comment commentTo : Option String) (subtractFeeFromAmount replaceable : Option Bool) :
    DecodedRunRes β ε (List SendParam) δ :=
  cmdWithRetryAndDecode env decode trans "sendtoaddress"
    (sendToAddressParams address amount comment commentTo subtractFeeFromAmount replaceable)

/-- `isReady()`:

```
try {
  if (this.options.ancient === true) { await this.ancientGetInfo(); }
  else { await this.getBlockchainInfo(); }
  return true;
} catch (error) { return false; }
```

`ancientGetInfo` is `cmdWithRetryAndDecode(AncientGetInfoResultDecoder, 'getinfo')`
and `getBlockchainInfo` is
`cmdWithRetryAndDecode(GetBlockchainInfoResultDecoder, 'getblockchaininfo')`,
both with an empty parameter list. `optionsAncient` models `options.ancient`
(`bool | undefined`); the two calls take their own transport behaviour and
decoder. -/
def isReady {α βA βB ε δ : Type} (env : UtilsEnv ε) (optionsAncient : Option Bool)
    (transGetinfo transGetblockchaininfo : Nat → Except ε α)
    (decodeAncient : α → Except δ βA) (decodeBlockchainInfo : α → Except δ βB) : Bool :=
  if optionsAncient = some true then
    match (cmdWithRetryAndDecode env decodeAncient transGetinfo "getinfo"
        ([] : List SendParam)).result with
    | Except.ok _ => true
    | Except.error _ => false
  else
    match (cmdWithRetryAndDecode env decodeBlockchainInfo transGetblockchaininfo
        "getblockchaininfo" ([] : List SendParam)).result with
    | Except.ok _ => true
    | Except.error _ => false

/-- The trace of a run whose every attempt from `n` on fails with a
retryable error, for `k` remaining retries: attempts `n, n+1, …, n+k` with
one delay of `d0` between consecutive attempts. -/
def attemptsTrace (d0 : Nat) : Nat → Nat → List Event
  | 0, n => [Event.attempt n]
  | k + 1, n => Event.attempt n :: Event.delayEv d0 :: attemptsTrace d0 k (n + 1)

/-- A trace of the executor is well formed for start attempt `n` and delay
`d0` when it consists of consecutively numbered attempts starting at `n`,
with exactly one delay of `d0` between consecutive attempts, no delay before
the first attempt and none after the last. -/
def wellFormedTrace (d0 : Nat) : Nat → List Event → Bool
  | n, [Event.attempt m] => m == n
  | n, Event.attempt m :: Event.delayEv d :: rest =>
      m == n && d == d0 && wellFormedTrace d0 (n + 1) rest
  | _, _ => false

section RetryLemmas

variable {α ε π : Type} {env : UtilsEnv ε} {trans : Nat → Except ε α}
  {method : String} {params : π} {methodIsPure : Bool} {maxAttempts : Nat}

theorem numAttempts_nil : numAttempts [] = 0 := rfl

theorem numAttempts_attempt_cons (n : Nat) (l : List Event) :
    numAttempts (Event.attempt n :: l) = numAttempts l + 1 := by
  simp [numAttempts, List.countP_cons, isAttempt]

theorem numAttempts_delay_cons (d : Nat) (l : List Event) :
    numAttempts (Event.delayEv d :: l) = numAttempts l := by
  simp [numAttempts, List.countP_cons, isAttempt]

/-- A successful transport call is terminal: one attempt, the raw result. -/
theorem attemptGo_ok {fuel attemptN : Nat} {r : α}
    (htr : trans attemptN = Except.ok r) :
    attemptGo env trans method params methodIsPure maxAttempts fuel attemptN =
      ⟨Except.ok r, [Event.attempt attemptN]⟩ := by
  rw [attemptGo]
  simp [htr]

/-- When the retry condition computed by the executor is false, the failed
attempt is terminal, whether or not attempts are exhausted. -/
theorem attemptGo_throw {fuel attemptN : Nat} {e : ε}
    (htr : trans attemptN = Except.error e)
    (hnr : (!(!methodIsPure && env.getWasExecutedFromError method e != some false)
        && env.getShouldRetry method e) = false) :
    attemptGo env trans method params methodIsPure maxAttempts fuel attemptN =
      ⟨Except.error ⟨e, env.getWasExecutedFromError method e, method, params,
        methodIsPure, maxAttempts, attemptN⟩, [Event.attempt attemptN]⟩ := by
  rw [attemptGo]
  simp only [htr, hnr]
  split <;> simp

/-- When attempts are exhausted (`attemptN === maxAttempts`), the failed
attempt is terminal whatever the retry condition. -/
theorem attemptGo_at_max {fuel attemptN : Nat} {e : ε}
    (heq : attemptN = maxAttempts) (htr : trans attemptN = Except.error e) :
    attemptGo env trans method params methodIsPure maxAttempts fuel attemptN =
      ⟨Except.error ⟨e, env.getWasExecutedFromError method e, method, params,
        methodIsPure, maxAttempts, attemptN⟩, [Event.attempt attemptN]⟩ := by
  subst heq
  rw [attemptGo]
  simp [htr]

/-- When the retry condition is true and attempts are not exhausted, the
executor delays and recurses into the next attempt. -/
theorem attemptGo_retry {fuel attemptN : Nat} {e : ε}
    (hne : attemptN ≠ maxAttempts) (htr : trans attemptN = Except.error e)
    (hr : (!(!methodIsPure && env.getWasExecutedFromError method e != some false)
        && env.getShouldRetry method e) = true) :
    attemptGo env trans method params methodIsPure maxAttempts (fuel + 1) attemptN =
      ⟨(attemptGo env trans method params methodIsPure maxAttempts fuel (attemptN + 1)).result,
       Event.attempt attemptN :: Event.delayEv DELAY_BETWEEN_ATTEMPTS ::
         (attemptGo env trans method params methodIsPure maxAttempts fuel (attemptN + 1)).trace⟩ := by
  conv_lhs => rw [attemptGo]
  simp only [htr]
  rw [if_neg hne, hr]
  simp

/-- With zero fuel, a failed attempt is terminal in every branch (all three
throw branches build the same terminal error). -/
theorem attemptGo_fuel_zero {attemptN : Nat} {e : ε}
    (htr : trans attemptN = Except.error e) :
    attemptGo env trans method params methodIsPure maxAttempts 0 attemptN =
      ⟨Except.error ⟨e, env.getWasExecutedFromError method e, method, params,
        methodIsPure, maxAttempts, attemptN⟩, [Event.attempt attemptN]⟩ := by
  rw [attemptGo]
  simp only [htr]
  split
  · rfl
  · split
    · rfl
    · rfl

/-- Every run's trace starts with the attempt it was entered at. -/
theorem attemptGo_trace_head (fuel attemptN : Nat) :
    (attemptGo env trans method params methodIsPure maxAttempts fuel attemptN).trace.head? =
      some (Event.attempt attemptN) := by
  rw [attemptGo]
  cases htr : trans attemptN with
  | ok r => simp
  | error e =>
    simp only []
    split
    · simp
    · split
      · split <;> simp
      · simp

/-- Every delay the executor ever performs lasts `DELAY_BETWEEN_ATTEMPTS`. -/
theorem attemptGo_delay_mem :
    ∀ fuel attemptN d,
      Event.delayEv d ∈ (attemptGo env trans method params methodIsPure maxAttempts fuel attemptN).trace →
      d = DELAY_BETWEEN_ATTEMPTS := by
  intro fuel
  induction fuel with
  | zero =>
    intro attemptN d hd
    cases htr : trans attemptN with
    | ok r => rw [attemptGo_ok htr] at hd; simp at hd
    | error e => rw [attemptGo_fuel_zero htr] at hd; simp at hd
  | succ fuel ih =>
    intro attemptN d hd
    cases htr : trans attemptN with
    | ok r => rw [attemptGo_ok htr] at hd; simp at hd
    | error e =>
      by_cases heq : attemptN = maxAttempts
      · rw [attemptGo_at_max heq htr] at hd; simp at hd
      · cases hsr : (!(!methodIsPure && env.getWasExecutedFromError method e != some false)
            && env.getShouldRetry method e) with
        | false => rw [attemptGo_throw htr hsr] at hd; simp at hd
        | true =>
          rw [attemptGo_retry heq htr hsr] at hd
          simp only [List.mem_cons] at hd
          rcases hd with h | h | h
          · exact Event.noConfusion h
          · cases h; rfl
          · exact ih (attemptN + 1) d h

/-- The executor never makes an attempt beyond attempt number `maxAttempts`
when entered at an attempt number within the bound. -/
theorem attemptGo_numAttempts_le :
    ∀ fuel attemptN, attemptN ≤ maxAttempts →
      numAttempts (attemptGo env trans method params methodIsPure maxAttempts fuel attemptN).trace + attemptN ≤
        maxAttempts + 1 := by
  intro fuel
  induction fuel with
  | zero =>
    intro attemptN hle
    cases htr : trans attemptN with
    | ok r =>
      rw [attemptGo_ok htr]
      simp [numAttempts_attempt_cons, numAttempts_nil]
      omega
    | error e =>
      rw [attemptGo_fuel_zero htr]
      simp [numAttempts_attempt_cons, numAttempts_nil]
      omega
  | succ fuel ih =>
    intro attemptN hle
    cases htr : trans attemptN with
    | ok r =>
      rw [attemptGo_ok htr]
      simp [numAttempts_attempt_cons, numAttempts_nil]
      omega
    | error e =>
      by_cases heq : attemptN = maxAttempts
      · rw [attemptGo_at_max heq htr]
        simp [numAttempts_attempt_cons, numAttempts_nil]
        omega
      · cases hsr : (!(!methodIsPure && env.getWasExecutedFromError method e != some false)
            && env.getShouldRetry method e) with
        | false =>
          rw [attemptGo_throw htr hsr]
          simp [numAttempts_attempt_cons, numAttempts_nil]
          omega
        | true =>
          rw [attemptGo_retry heq htr hsr]
          have hrec := ih (attemptN + 1) (by omega)
          simp only [numAttempts_attempt_cons, numAttempts_delay_cons]
          omega

/-- Every trace of the executor is well formed: attempts numbered
consecutively from the entry attempt, one constant delay strictly between
consecutive attempts, none before the first or after the last. -/
theorem attemptGo_wellFormed :
    ∀ fuel attemptN,
      wellFormedTrace DELAY_BETWEEN_ATTEMPTS attemptN
        (attemptGo env trans method params methodIsPure maxAttempts fuel attemptN).trace = true := by
  intro fuel
  induction fuel with
  | zero =>
    intro attemptN
    cases htr : trans attemptN with
    | ok r => rw [attemptGo_ok htr]; simp [wellFormedTrace]
    | error e => rw [attemptGo_fuel_zero htr]; simp [wellFormedTrace]
  | succ fuel ih =>
    intro attemptN
    cases htr : trans attemptN with
    | ok r => rw [attemptGo_ok htr]; simp [wellFormedTrace]
    | error e =>
      by_cases heq : attemptN = maxAttempts
      · rw [attemptGo_at_max heq htr]; simp [wellFormedTrace]
      · cases hsr : (!(!methodIsPure && env.getWasExecutedFromError method e != some false)
            && env.getShouldRetry method e) with
        | false => rw [attemptGo_throw htr hsr]; simp [wellFormedTrace]
        | true =>
          rw [attemptGo_retry heq htr hsr]
          simp [wellFormedTrace, ih (attemptN + 1)]

/-- Every run's trace ends with a transport attempt (never with a delay). -/
theorem attemptGo_getLast :
    ∀ fuel attemptN, ∃ m,
      (attemptGo env trans method params methodIsPure maxAttempts fuel attemptN).trace.getLast? =
        some (Event.attempt m) := by
  intro fuel
  induction fuel with
  | zero =>
    intro attemptN
    cases htr : trans attemptN with
    | ok r => exact ⟨attemptN, by rw [attemptGo_ok htr]; rfl⟩
    | error e => exact ⟨attemptN, by rw [attemptGo_fuel_zero htr]; rfl⟩
  | succ fuel ih =>
    intro attemptN
    cases htr : trans attemptN with
    | ok r => exact ⟨attemptN, by rw [attemptGo_ok htr]; rfl⟩
    | error e =>
      by_cases heq : attemptN = maxAttempts
      · exact ⟨attemptN, by rw [attemptGo_at_max heq htr]; rfl⟩
      · cases hsr : (!(!methodIsPure && env.getWasExecutedFromError method e != some false)
            && env.getShouldRetry method e) with
        | false => exact ⟨attemptN, by rw [attemptGo_throw htr hsr]; rfl⟩
        | true =>
          obtain ⟨m, hm⟩ := ih (attemptN + 1)
          refine ⟨m, ?_⟩
          rw [attemptGo_retry heq htr hsr]
          have hhead := @attemptGo_trace_head _ _ _ env trans method params methodIsPure
            maxAttempts fuel (attemptN + 1)
          cases hc : (attemptGo env trans method params methodIsPure maxAttempts fuel (attemptN + 1)).trace with
          | nil => rw [hc] at hhead; simp at hhead
          | cons x xs =>
            rw [hc] at hm
            simpa [List.getLast?_cons_cons, hc] using hm

/-- Whenever the executor terminates in failure, the thrown error carries the
method, parameters, purity flag and attempt bound of the invocation; its
`attempts` field is the number of the last attempt (the last entry of the
trace, and the count of attempts performed above the entry attempt); its
`error` is the transport error of that last attempt; and its `executed`
verdict is the classifier's output on that very error. -/
theorem attemptGo_error_spec :
    ∀ fuel attemptN (err : PeercoinRPCError ε π),
      (attemptGo env trans method params methodIsPure maxAttempts fuel attemptN).result = Except.error err →
      err.method = method ∧ err.params = params ∧ err.methodIsPure = methodIsPure ∧
      err.maxAttempts = maxAttempts ∧
      trans err.attempts = Except.error err.error ∧
      err.executed = env.getWasExecutedFromError method err.error ∧
      err.attempts + 1 = attemptN + numAttempts (attemptGo env trans method params methodIsPure maxAttempts fuel attemptN).trace ∧
      (attemptGo env trans method params methodIsPure maxAttempts fuel attemptN).trace.getLast? =
        some (Event.attempt err.attempts) := by
  intro fuel
  induction fuel with
  | zero =>
    intro attemptN err hres
    cases htr : trans attemptN with
    | ok r =>
      rw [attemptGo_ok htr] at hres
      exact absurd hres (by simp)
    | error e =>
      rw [attemptGo_fuel_zero htr] at hres ⊢
      simp only [Except.error.injEq] at hres
      subst hres
      refine ⟨rfl, rfl, rfl, rfl, htr, rfl, ?_, rfl⟩
      simp [numAttempts_attempt_cons, numAttempts_nil]
  | succ fuel ih =>
    intro attemptN err hres
    cases htr : trans attemptN with
    | ok r =>
      rw [attemptGo_ok htr] at hres
      exact absurd hres (by simp)
    | error e =>
      by_cases heq : attemptN = maxAttempts
      · rw [attemptGo_at_max heq htr] at hres ⊢
        simp only [Except.error.injEq] at hres
        subst hres
        refine ⟨rfl, rfl, rfl, rfl, htr, rfl, ?_, rfl⟩
        simp [numAttempts_attempt_cons, numAttempts_nil]
      · cases hsr : (!(!methodIsPure && env.getWasExecutedFromError method e != some false)
            && env.getShouldRetry method e) with
        | false =>
          rw [attemptGo_throw htr hsr] at hres ⊢
          simp only [Except.error.injEq] at hres
          subst hres
          refine ⟨rfl, rfl, rfl, rfl, htr, rfl, ?_, rfl⟩
          simp [numAttempts_attempt_cons, numAttempts_nil]
        | true =>
          rw [attemptGo_retry heq htr hsr] at hres ⊢
          simp only [] at hres
          obtain ⟨hm, hp, hpu, hmx, htre, hex, hcount, hlast⟩ := ih (attemptN + 1) err hres
          refine ⟨hm, hp, hpu, hmx, htre, hex, ?_, ?_⟩
          · simp only [numAttempts_attempt_cons, numAttempts_delay_cons]
            omega
          · have hhead := @attemptGo_trace_head _ _ _ env trans method params methodIsPure
              maxAttempts fuel (attemptN + 1)
            cases hc : (attemptGo env trans method params methodIsPure maxAttempts fuel (attemptN + 1)).trace with
            | nil => rw [hc] at hhead; simp at hhead
            | cons x xs =>
              rw [hc] at hlast
              simpa [List.getLast?_cons_cons, hc] using hlast

/-- If the run ever reaches attempt number `maxAttempts` and the transport
fails there, the executor terminates at once with the terminal error built
for that attempt: it never recurses past `maxAttempts`. -/
theorem attemptGo_hits_max {e : ε} :
    ∀ fuel attemptN, attemptN ≤ maxAttempts →
      trans maxAttempts = Except.error e →
      Event.attempt maxAttempts ∈ (attemptGo env trans method params methodIsPure maxAttempts fuel attemptN).trace →
      (attemptGo env trans method params methodIsPure maxAttempts fuel attemptN).result =
        Except.error ⟨e, env.getWasExecutedFromError method e, method, params,
          methodIsPure, maxAttempts, maxAttempts⟩ := by
  intro fuel
  induction fuel with
  | zero =>
    intro attemptN hle hmax hmem
    cases htr : trans attemptN with
    | ok r =>
      rw [attemptGo_ok htr] at hmem ⊢
      simp only [List.mem_singleton, Event.attempt.injEq] at hmem
      rw [hmem] at hmax
      rw [hmax] at htr
      exact absurd htr (by simp)
    | error e2 =>
      rw [attemptGo_fuel_zero htr] at hmem ⊢
      simp only [List.mem_singleton, Event.attempt.injEq] at hmem
      subst hmem
      rw [htr] at hmax
      simp only [Except.error.injEq] at hmax
      subst hmax
      rfl
  | succ fuel ih =>
    intro attemptN hle hmax hmem
    cases htr : trans attemptN with
    | ok r =>
      rw [attemptGo_ok htr] at hmem ⊢
      simp only [List.mem_singleton, Event.attempt.injEq] at hmem
      rw [hmem] at hmax
      rw [hmax] at htr
      exact absurd htr (by simp)
    | error e2 =>
      by_cases heq : attemptN = maxAttempts
      · rw [attemptGo_at_max heq htr] at hmem ⊢
        subst heq
        rw [htr] at hmax
        simp only [Except.error.injEq] at hmax
        subst hmax
        rfl
      · cases hsr : (!(!methodIsPure && env.getWasExecutedFromError method e2 != some false)
            && env.getShouldRetry method e2) with
        | false =>
          rw [attemptGo_throw htr hsr] at hmem ⊢
          simp only [List.mem_singleton, Event.attempt.injEq] at hmem
          exact absurd hmem.symm heq
        | true =>
          rw [attemptGo_retry heq htr hsr] at hmem ⊢
          simp only [List.mem_cons] at hmem
          rcases hmem with h | h | h
          · exact absurd (Event.attempt.inj h).symm heq
          · exact Event.noConfusion h
          · exact ih (attemptN + 1) (by omega) hmax h

/-- Supplying more fuel than the remaining distance to `maxAttempts` does not
change the run: the fuel-exhausted branch of `attemptGo` is unreachable, so
`attemptGo` with the fuel chosen by `cmdWithRetry` is a faithful rendering of
the source's unbounded recursion. -/
theorem attemptGo_fuel_irrelevant :
    ∀ fuel1 fuel2 attemptN, attemptN ≤ maxAttempts →
      maxAttempts ≤ attemptN + fuel1 → maxAttempts ≤ attemptN + fuel2 →
      attemptGo env trans method params methodIsPure maxAttempts fuel1 attemptN =
        attemptGo env trans method params methodIsPure maxAttempts fuel2 attemptN := by
  intro fuel1
  induction fuel1 with
  | zero =>
    intro fuel2 attemptN h1 h2 h3
    have heq : attemptN = maxAttempts := by omega
    cases htr : trans attemptN with
    | ok r => rw [attemptGo_ok htr, attemptGo_ok htr]
    | error e => rw [attemptGo_fuel_zero htr, attemptGo_at_max heq htr]
  | succ fuel1 ih =>
    intro fuel2 attemptN h1 h2 h3
    by_cases heq : attemptN = maxAttempts
    · cases htr : trans attemptN with
      | ok r => rw [attemptGo_ok htr, attemptGo_ok htr]
      | error e => rw [attemptGo_at_max heq htr, attemptGo_at_max heq htr]
    · cases fuel2 with
      | zero => omega
      | succ fuel2 =>
        cases htr : trans attemptN with
        | ok r => rw [attemptGo_ok htr, attemptGo_ok htr]
        | error e =>
          cases hsr : (!(!methodIsPure && env.getWasExecutedFromError method e != some false)
              && env.getShouldRetry method e) with
          | false => rw [attemptGo_throw htr hsr, attemptGo_throw htr hsr]
          | true =>
            rw [attemptGo_retry heq htr hsr, attemptGo_retry heq htr hsr,
              ih fuel2 (attemptN + 1) (by omega) (by omega) (by omega)]

/-- When every attempt from the entry attempt through `maxAttempts` fails and
the executor's retry condition holds on each of them short of the last, the
run performs exactly the attempts `attemptN, …, maxAttempts` with one
constant delay between consecutive attempts, and terminates with the
terminal error of attempt `maxAttempts`. -/
theorem attemptGo_all_retryable {errOf : Nat → ε} :
    ∀ fuel attemptN, attemptN ≤ maxAttempts → maxAttempts ≤ attemptN + fuel →
      (∀ n, attemptN ≤ n → n ≤ maxAttempts → trans n = Except.error (errOf n)) →
      (∀ n, attemptN ≤ n → n < maxAttempts →
        (!(!methodIsPure && env.getWasExecutedFromError method (errOf n) != some false)
          && env.getShouldRetry method (errOf n)) = true) →
      attemptGo env trans method params methodIsPure maxAttempts fuel attemptN =
        ⟨Except.error ⟨errOf maxAttempts, env.getWasExecutedFromError method (errOf maxAttempts),
          method, params, methodIsPure, maxAttempts, maxAttempts⟩,
         attemptsTrace DELAY_BETWEEN_ATTEMPTS (maxAttempts - attemptN) attemptN⟩ := by
  intro fuel
  induction fuel with
  | zero =>
    intro attemptN h1 h2 hfail hsr
    have heq : attemptN = maxAttempts := by omega
    have htr := hfail attemptN (le_refl _) h1
    rw [attemptGo_fuel_zero htr]
    subst heq
    rw [Nat.sub_self]
    rfl
  | succ fuel ih =>
    intro attemptN h1 h2 hfail hsr
    by_cases heq : attemptN = maxAttempts
    · have htr := hfail attemptN (le_refl _) h1
      rw [attemptGo_at_max heq htr]
      subst heq
      rw [Nat.sub_self]
      rfl
    · have htr := hfail attemptN (le_refl _) h1
      rw [attemptGo_retry heq htr (hsr attemptN (le_refl _) (by omega)),
        ih (attemptN + 1) (by omega) (by omega)
          (fun n hn hn2 => hfail n (by omega) hn2)
          (fun n hn hn2 => hsr n (by omega) hn2)]
      have hk : maxAttempts - attemptN = (maxAttempts - (attemptN + 1)) + 1 := by omega
      rw [hk]
      rfl

end RetryLemmas

/-! Concrete instantiations used to exhibit runs of the executor. -/

/-- A transport for which every attempt fails with the same error. -/
def transUnitFail : Nat → Except Unit Unit := fun _ => Except.error ()

/-- A transport for which every attempt succeeds. -/
def transNatOk : Nat → Except Unit Nat := fun _ => Except.ok 0

/-- Environment: `"g"` is pure, every error is classified executed, every
error is deemed retryable. -/
def envPureExec : UtilsEnv Unit := ⟨["g"], fun _ _ => some true, fun _ _ => true⟩

/-- Environment: `"g"` is pure, classification unknown, retryable. -/
def envPureRetry : UtilsEnv Unit := ⟨["g"], fun _ _ => none, fun _ _ => true⟩

/-- Environment: no pure methods, every error classified executed, retryable. -/
def envNonpureExec : UtilsEnv Unit := ⟨[], fun _ _ => some true, fun _ _ => true⟩

/-- Environment: no pure methods, classification unknown, retryable. -/
def envNonpureUnknown : UtilsEnv Unit := ⟨[], fun _ _ => none, fun _ _ => true⟩

/-- Environment: no pure methods, classification not-executed, retryable. -/
def envNotExecRetry : UtilsEnv Unit := ⟨[], fun _ _ => some false, fun _ _ => true⟩

/-- Environment: no pure methods, classification unknown, never retryable. -/
def envNoRetry : UtilsEnv Unit := ⟨[], fun _ _ => none, fun _ _ => false⟩

/-- The terminal error of the one-attempt failing run used as a witness. -/
def errW : PeercoinRPCError Unit Unit := ⟨(), none, "m", (), false, 5, 1⟩

/-! The claims. -/

/-- C1: for every logical invocation, the retry executor performs at most
`MAX_ATTEMPTS` (5) transport attempts; and if the run reaches the
`MAX_ATTEMPTS`-th attempt and it fails, the executor terminates there with a
`PeercoinRPCError` and never recurses into another attempt. -/
theorem cmdWithRetry_attempts_le_max {α ε π : Type} (env : UtilsEnv ε)
    (trans : Nat → Except ε α) (method : String) (params : π) :
    numAttempts (cmdWithRetry env trans method params).trace ≤ MAX_ATTEMPTS ∧
    ∀ e, trans MAX_ATTEMPTS = Except.error e →
      Event.attempt MAX_ATTEMPTS ∈ (cmdWithRetry env trans method params).trace →
      (cmdWithRetry env trans method params).result =
        Except.error ⟨e, env.getWasExecutedFromError method e, method, params,
          env.PURE_METHODS.contains method, MAX_ATTEMPTS, MAX_ATTEMPTS⟩ := by
  constructor
  · have h := @attemptGo_numAttempts_le _ _ _ env trans method params
      (env.PURE_METHODS.contains method) MAX_ATTEMPTS MAX_ATTEMPTS 1 (by decide)
    simp only [cmdWithRetry]
    omega
  · intro e hmax hmem
    simp only [cmdWithRetry] at hmem ⊢
    exact attemptGo_hits_max MAX_ATTEMPTS 1 (by decide) hmax hmem

/-- Witness for C1 at a concrete run in which all five attempts fail with a
retryable, not-executed error. -/
theorem cmdWithRetry_attempts_le_max_witness :
    numAttempts (cmdWithRetry envNotExecRetry transUnitFail "s" ()).trace ≤ MAX_ATTEMPTS ∧
    (cmdWithRetry envNotExecRetry transUnitFail "s" ()).result =
      Except.error ⟨(), some false, "s", (), false, MAX_ATTEMPTS, MAX_ATTEMPTS⟩ :=
  ⟨(cmdWithRetry_attempts_le_max envNotExecRetry transUnitFail "s" ()).1,
   (cmdWithRetry_attempts_le_max envNotExecRetry transUnitFail "s" ()).2 () rfl (by decide)⟩

/-- C2 counterexample: for a PURE method, the executor retries even when the
classifier reports "executed". In this run `"g"` is pure, the only transport
error is classified `some true` (executed) on every failed attempt, the
policy allows retry, and the executor still performs 5 transport attempts
instead of failing immediately after the first — refuting the claim's
"for every method (pure or not)". -/
theorem pure_executed_retries_counterexample :
    envPureExec.PURE_METHODS.contains "g" = true ∧
    envPureExec.getWasExecutedFromError "g" () = some true ∧
    transUnitFail 1 = Except.error () ∧
    numAttempts (cmdWithRetry envPureExec transUnitFail "g" ()).trace = 5 :=
  ⟨by decide, rfl, rfl, by decide⟩

/-- C2 (amended): for every NON-pure method, a failed attempt whose effect
classification is "executed" is terminal: the executor makes no further
attempt and fails immediately, at whatever attempt number it happens.
(`attemptGo` is invoked with the purity flag `cmdWithRetry` computes.) -/
theorem nonpure_executed_fails_immediately {α ε π : Type} (env : UtilsEnv ε)
    (trans : Nat → Except ε α) (method : String) (params : π)
    (maxAttempts fuel attemptN : Nat) (e : ε)
    (hpure : env.PURE_METHODS.contains method = false)
    (htr : trans attemptN = Except.error e)
    (hexec : env.getWasExecutedFromError method e = some true) :
    attemptGo env trans method params (env.PURE_METHODS.contains method)
        maxAttempts fuel attemptN =
      ⟨Except.error ⟨e, some true, method, params, env.PURE_METHODS.contains method,
        maxAttempts, attemptN⟩, [Event.attempt attemptN]⟩ := by
  rw [hpure, attemptGo_throw htr (by simp [hexec]), hexec]

/-- Witness for C2's amended theorem at a concrete one-attempt run. -/
theorem nonpure_executed_fails_immediately_witness :
    attemptGo envNonpureExec transUnitFail "s" ()
        (envNonpureExec.PURE_METHODS.contains "s") MAX_ATTEMPTS MAX_ATTEMPTS 1 =
      ⟨Except.error ⟨(), some true, "s", (), envNonpureExec.PURE_METHODS.contains "s",
        MAX_ATTEMPTS, 1⟩, [Event.attempt 1]⟩ :=
  nonpure_executed_fails_immediately envNonpureExec transUnitFail "s" ()
    MAX_ATTEMPTS MAX_ATTEMPTS 1 () rfl rfl rfl

/-- C3: for every non-pure method, a failed attempt whose effect
classification is "unknown" (the classifier returns neither `true` nor
`false`) is terminal: no retry, immediate `PeercoinRPCError` — whatever
`getShouldRetry` would say (the environment is arbitrary). -/
theorem nonpure_unknown_fails_immediately {α ε π : Type} (env : UtilsEnv ε)
    (trans : Nat → Except ε α) (method : String) (params : π)
    (maxAttempts fuel attemptN : Nat) (e : ε)
    (hpure : env.PURE_METHODS.contains method = false)
    (htr : trans attemptN = Except.error e)
    (hexec : env.getWasExecutedFromError method e = none) :
    attemptGo env trans method params (env.PURE_METHODS.contains method)
        maxAttempts fuel attemptN =
      ⟨Except.error ⟨e, none, method, params, env.PURE_METHODS.contains method,
        maxAttempts, attemptN⟩, [Event.attempt attemptN]⟩ := by
  rw [hpure, attemptGo_throw htr (by simp [hexec]), hexec]

/-- Witness for C3 at a concrete run whose retry policy WOULD allow retry. -/
theorem nonpure_unknown_fails_immediately_witness :
    attemptGo envNonpureUnknown transUnitFail "s" ()
        (envNonpureUnknown.PURE_METHODS.contains "s") MAX_ATTEMPTS MAX_ATTEMPTS 1 =
      ⟨Except.error ⟨(), none, "s", (), envNonpureUnknown.PURE_METHODS.contains "s",
        MAX_ATTEMPTS, 1⟩, [Event.attempt 1]⟩ :=
  nonpure_unknown_fails_immediately envNonpureUnknown transUnitFail "s" ()
    MAX_ATTEMPTS MAX_ATTEMPTS 1 () rfl rfl rfl

/-- C4: for a pure method whose every attempt fails with a retryable error,
the executor performs exactly `MAX_ATTEMPTS` (5) transport attempts and then
fails, with the configured constant delay between consecutive attempts —
exactly 4 delays, none before the first attempt or after the failure. -/
theorem pure_retryable_exhausts_attempts {α ε π : Type} (env : UtilsEnv ε)
    (trans : Nat → Except ε α) (method : String) (params : π) (errOf : Nat → ε)
    (hpure : env.PURE_METHODS.contains method = true)
    (hfail : ∀ n, 1 ≤ n → n ≤ MAX_ATTEMPTS → trans n = Except.error (errOf n))
    (hretry : ∀ n, 1 ≤ n → n < MAX_ATTEMPTS → env.getShouldRetry method (errOf n) = true) :
    cmdWithRetry env trans method params =
      ⟨Except.error ⟨errOf MAX_ATTEMPTS, env.getWasExecutedFromError method (errOf MAX_ATTEMPTS),
        method, params, true, MAX_ATTEMPTS, MAX_ATTEMPTS⟩,
       [Event.attempt 1, Event.delayEv 5000, Event.attempt 2, Event.delayEv 5000,
        Event.attempt 3, Event.delayEv 5000, Event.attempt 4, Event.delayEv 5000,
        Event.attempt 5]⟩ := by
  simp only [cmdWithRetry]
  rw [hpure, attemptGo_all_retryable MAX_ATTEMPTS 1 (by decide) (by decide) hfail
    (fun n h1 h2 => by simp [hretry n h1 h2])]
  rfl

/-- Witness for C4 at a concrete run: pure method, five failures, retryable. -/
theorem pure_retryable_exhausts_attempts_witness :
    cmdWithRetry envPureRetry transUnitFail "g" () =
      ⟨Except.error ⟨(), none, "g", (), true, MAX_ATTEMPTS, MAX_ATTEMPTS⟩,
       [Event.attempt 1, Event.delayEv 5000, Event.attempt 2, Event.delayEv 5000,
        Event.attempt 3, Event.delayEv 5000, Event.attempt 4, Event.delayEv 5000,
        Event.attempt 5]⟩ :=
  pure_retryable_exhausts_attempts envPureRetry transUnitFail "g" () (fun _ => ())
    (by decide) (fun _ _ _ => rfl) (fun _ _ _ => rfl)

/-- C5: for a non-pure method whose every failed attempt is classified
"not-executed" and deemed retryable, the executor keeps retrying up to the
`MAX_ATTEMPTS` bound — the same 5-attempt, 4-delay run a pure method would
perform. -/
theorem nonpure_notexecuted_retryable_exhausts_attempts {α ε π : Type} (env : UtilsEnv ε)
    (trans : Nat → Except ε α) (method : String) (params : π) (errOf : Nat → ε)
    (hpure : env.PURE_METHODS.contains method = false)
    (hfail : ∀ n, 1 ≤ n → n ≤ MAX_ATTEMPTS → trans n = Except.error (errOf n))
    (hnotexec : ∀ n, 1 ≤ n → n < MAX_ATTEMPTS →
      env.getWasExecutedFromError method (errOf n) = some false)
    (hretry : ∀ n, 1 ≤ n → n < MAX_ATTEMPTS → env.getShouldRetry method (errOf n) = true) :
    cmdWithRetry env trans method params =
      ⟨Except.error ⟨errOf MAX_ATTEMPTS, env.getWasExecutedFromError method (errOf MAX_ATTEMPTS),
        method, params, false, MAX_ATTEMPTS, MAX_ATTEMPTS⟩,
       [Event.attempt 1, Event.delayEv 5000, Event.attempt 2, Event.delayEv 5000,
        Event.attempt 3, Event.delayEv 5000, Event.attempt 4, Event.delayEv 5000,
        Event.attempt 5]⟩ := by
  simp only [cmdWithRetry]
  rw [hpure, attemptGo_all_retryable MAX_ATTEMPTS 1 (by decide) (by decide) hfail
    (fun n h1 h2 => by simp [hnotexec n h1 h2, hretry n h1 h2])]
  rfl

/-- Witness for C5 at a concrete run: non-pure method, five failures each
classified not-executed and retryable. -/
theorem nonpure_notexecuted_retryable_exhausts_attempts_witness :
    cmdWithRetry envNotExecRetry transUnitFail "t" () =
      ⟨Except.error ⟨(), some false, "t", (), false, MAX_ATTEMPTS, MAX_ATTEMPTS⟩,
       [Event.attempt 1, Event.delayEv 5000, Event.attempt 2, Event.delayEv 5000,
        Event.attempt 3, Event.delayEv 5000, Event.attempt 4, Event.delayEv 5000,
        Event.attempt 5]⟩ :=
  nonpure_notexecuted_retryable_exhausts_attempts envNotExecRetry transUnitFail "t" ()
    (fun _ => ()) rfl (fun _ _ _ => rfl) (fun _ _ _ => rfl) (fun _ _ _ => rfl)

/-- C6: when the transport pipeline succeeds but decoding of the raw result
fails, the raised error is the decode error tagged `executed = true`, and the
retry loop is not re-entered: the trace — hence the number of transport
attempts and delays — is exactly that of the already-finished `cmdWithRetry`
run. -/
theorem decode_failure_no_retry_executed_true {α β ε π δ : Type} (env : UtilsEnv ε)
    (decode : α → Except δ β) (trans : Nat → Except ε α) (method : String) (params : π)
    (v : α) (de : δ)
    (hok : (cmdWithRetry env trans method params).result = Except.ok v)
    (hdec : decode v = Except.error de) :
    cmdWithRetryAndDecode env decode trans method params =
      ⟨Except.error (DecodeFail.decodeErr de true),
       (cmdWithRetry env trans method params).trace⟩ := by
  simp only [cmdWithRetryAndDecode, hok, hdec]

/-- Witness for C6 at a concrete run: transport succeeds at once, decoding
rejects the value. -/
theorem decode_failure_no_retry_executed_true_witness :
    cmdWithRetryAndDecode envNoRetry (fun _ : Nat => (Except.error "bad" : Except String Nat))
        transNatOk "m" () =
      ⟨Except.error (DecodeFail.decodeErr "bad" true),
       (cmdWithRetry envNoRetry transNatOk "m" ()).trace⟩ :=
  decode_failure_no_retry_executed_true envNoRetry
    (fun _ => Except.error "bad") transNatOk "m" () 0 "bad" rfl rfl

/-- C7: whenever the retry executor terminates in failure, the thrown
`PeercoinRPCError` carries the method name, the parameter list, the purity
flag, the number of attempts made (the last attempt of the trace), the
attempt bound, and the ExecutionState the classifier computed from the error
of that last attempt, which it also wraps. -/
theorem terminal_error_diagnostics {α ε π : Type} (env : UtilsEnv ε)
    (trans : Nat → Except ε α) (method : String) (params : π)
    (err : PeercoinRPCError ε π)
    (herr : (cmdWithRetry env trans method params).result = Except.error err) :
    err.method = method ∧ err.params = params ∧
    err.methodIsPure = env.PURE_METHODS.contains method ∧
    err.maxAttempts = MAX_ATTEMPTS ∧
    err.attempts = numAttempts (cmdWithRetry env trans method params).trace ∧
    (cmdWithRetry env trans method params).trace.getLast? = some (Event.attempt err.attempts) ∧
    trans err.attempts = Except.error err.error ∧
    err.executed = env.getWasExecutedFromError method err.error := by
  simp only [cmdWithRetry] at herr ⊢
  obtain ⟨h1, h2, h3, h4, h5, h6, h7, h8⟩ := attemptGo_error_spec MAX_ATTEMPTS 1 err herr
  exact ⟨h1, h2, h3, h4, by omega, h8, h5, h6⟩

/-- Witness for C7 at a concrete run failing terminally on attempt 1. -/
theorem terminal_error_diagnostics_witness :
    errW.method = "m" ∧ errW.params = () ∧
    errW.methodIsPure = envNoRetry.PURE_METHODS.contains "m" ∧
    errW.maxAttempts = MAX_ATTEMPTS ∧
    errW.attempts = numAttempts (cmdWithRetry envNoRetry transUnitFail "m" ()).trace ∧
    (cmdWithRetry envNoRetry transUnitFail "m" ()).trace.getLast? =
      some (Event.attempt errW.attempts) ∧
    transUnitFail errW.attempts = Except.error () ∧
    errW.executed = envNoRetry.getWasExecutedFromError "m" () :=
  terminal_error_diagnostics envNoRetry transUnitFail "m" () errW rfl

/-- C8: the readiness probe `isReady` never throws: it always returns a
boolean, `true` exactly when the underlying read-only call — `ancientGetInfo`
(method `getinfo`) when `options.ancient === true`, else `getBlockchainInfo`
(method `getblockchaininfo`) — succeeds, and `false` whenever that call
fails with any error. -/
theorem isReady_never_throws {α βA βB ε δ : Type} (env : UtilsEnv ε)
    (optionsAncient : Option Bool)
    (transGetinfo transGetblockchaininfo : Nat → Except ε α)
    (decodeAncient : α → Except δ βA) (decodeBlockchainInfo : α → Except δ βB) :
    isReady env optionsAncient transGetinfo transGetblockchaininfo
        decodeAncient decodeBlockchainInfo =
      (if optionsAncient = some true then
        Except.isOk (cmdWithRetryAndDecode env decodeAncient transGetinfo
          "getinfo" ([] : List SendParam)).result
      else
        Except.isOk (cmdWithRetryAndDecode env decodeBlockchainInfo transGetblockchaininfo
          "getblockchaininfo" ([] : List SendParam)).result) := by
  by_cases hanc : optionsAncient = some true
  · simp only [isReady, if_pos hanc]
    cases (cmdWithRetryAndDecode env decodeAncient transGetinfo
      "getinfo" ([] : List SendParam)).result <;> rfl
  · simp only [isReady, if_neg hanc]
    cases (cmdWithRetryAndDecode env decodeBlockchainInfo transGetblockchaininfo
      "getblockchaininfo" ([] : List SendParam)).result <;> rfl

/-- C9: every delay the executor performs between attempts lasts the constant
`DELAY_BETWEEN_ATTEMPTS` = 5000 ms (no exponential backoff), and the trace is
well formed: consecutively numbered attempts starting at 1, exactly one
delay between consecutive attempts, no delay before the first attempt and
none after the terminal failure. -/
theorem delays_constant_between_attempts {α ε π : Type} (env : UtilsEnv ε)
    (trans : Nat → Except ε α) (method : String) (params : π) :
    wellFormedTrace 5000 1 (cmdWithRetry env trans method params).trace = true ∧
    ∀ d, Event.delayEv d ∈ (cmdWithRetry env trans method params).trace →
      d = DELAY_BETWEEN_ATTEMPTS := by
  constructor
  · simp only [cmdWithRetry]
    exact attemptGo_wellFormed MAX_ATTEMPTS 1
  · intro d hd
    simp only [cmdWithRetry] at hd
    exact attemptGo_delay_mem MAX_ATTEMPTS 1 d hd

/-- Witness for C9 at a concrete run containing delays. -/
theorem delays_constant_between_attempts_witness :
    wellFormedTrace 5000 1 (cmdWithRetry envPureRetry transUnitFail "g" ()).trace = true ∧
    (5000 : Nat) = DELAY_BETWEEN_ATTEMPTS :=
  ⟨(delays_constant_between_attempts envPureRetry transUnitFail "g" ()).1,
   (delays_constant_between_attempts envPureRetry transUnitFail "g" ()).2 5000 (by decide)⟩

/-- C10: when `sendToAddress` is called with a defined `comment` but with
`commentTo`, `subtractFeeFromAmount` and `replaceable` all undefined, the
parameter list sent to the remote node is exactly `[address, amount]`:
the comment is silently dropped, and the `sendtoaddress` pipeline is invoked
with just those two parameters. -/
theorem sendToAddress_comment_dropped {α β ε δ : Type} (env : UtilsEnv ε)
    (decode : α → Except δ β) (trans : Nat → Except ε α) (address amount c : String) :
    sendToAddressParams address amount (some c) none none none =
      [SendParam.str address, SendParam.str amount] ∧
    sendToAddress env decode trans address amount (some c) none none none =
      cmdWithRetryAndDecode env decode trans "sendtoaddress"
        [SendParam.str address, SendParam.str amount] := by
  exact ⟨rfl, rfl⟩

end PeercoinRPC
